import Mathlib

set_option maxHeartbeats 1600000
set_option maxRecDepth 100000

namespace Tarfn

/-- Archive format variants recognised by DecodeTarHeader in tarfn.c
(tar_format_old / tar_format_ustar / tar_format_gnu). -/
inductive TarFormat
  | old
  | ustar
  | gnu
deriving DecidableEq

/-- Decoded tar entry, mirroring struct TarInfo as consumed by tarfn.c.
Byte strings are modelled as lists of byte values.  The identity lookups
getpwnam and getgrnam are external collaborators and are not modelled, so
UserID and GroupID always hold the numerically decoded field values. -/
structure TarInfo where
  format : TarFormat
  Name : List Nat
  LinkName : List Nat
  Mode : Nat
  Size : Nat
  ModTime : Nat
  Device : Nat
  UserID : Nat
  GroupID : Nat
  Typ : Nat
deriving DecidableEq

/-- Modelled from the spec: the fixed 512-byte block size (TARBLKSZ comes
from dpkg/tarfn.h which is not among the given sources; the spec fixes the
framing unit to 512 bytes). -/
def TARBLKSZ : Nat := 512

/-- offsetof(struct TarHeader, Checksum) = 100 + 8 + 8 + 8 + 12 + 12. -/
def TarChecksumOffset : Nat := 148

/-- Modelled from the spec: entry-type byte values of enum TarFileType
(dpkg/tarfn.h is not among the given sources).  The values are the literal
link-flag bytes of the tar wire format: NUL, the ASCII digits 0 to 6, and
the ASCII letters K and L for the GNU long-link and long-name markers. -/
def NormalFile0 : Nat := 0

/-- Modelled from the spec: type byte of a new-style regular file, ASCII 0. -/
def NormalFile1 : Nat := 48

/-- Modelled from the spec: type byte of a hard link, ASCII 1. -/
def HardLink : Nat := 49

/-- Modelled from the spec: type byte of a symbolic link, ASCII 2. -/
def SymbolicLink : Nat := 50

/-- Modelled from the spec: type byte of a character device, ASCII 3. -/
def CharacterDevice : Nat := 51

/-- Modelled from the spec: type byte of a block device, ASCII 4. -/
def BlockDevice : Nat := 52

/-- Modelled from the spec: type byte of a directory, ASCII 5. -/
def Directory : Nat := 53

/-- Modelled from the spec: type byte of a FIFO, ASCII 6. -/
def FIFO : Nat := 54

/-- Modelled from the spec: type byte of a GNU long-link marker, ASCII K. -/
def GNU_LONGLINK : Nat := 75

/-- Modelled from the spec: type byte of a GNU long-name marker, ASCII L. -/
def GNU_LONGNAME : Nat := 76

/-- The space-skipping loop of OtoL in tarfn.c: advance past leading ASCII
spaces, decrementing the remaining field width.  The C loop is bounded only
by the bytes in memory; every call site passes a slice whose length equals
the declared width, so stopping at the end of the list is faithful. -/
def otolSkip : List Nat → Int → List Nat × Int
  | [], size => ([], size)
  | c :: s, size => if c = 32 then otolSkip s (size - 1) else (c :: s, size)

/-- The digit-accumulation loop of OtoL in tarfn.c: while the decremented
width stays non-negative and the next byte is an octal digit, accumulate
base-8 digits.  A non-digit byte or exhausted width stops the scan. -/
def otolDigits : List Nat → Int → Nat → Nat
  | [], _, n => n
  | c :: s, size, n =>
    if size ≤ 0 then n
    else if 48 ≤ c ∧ c ≤ 55 then otolDigits s (size - 1) (8 * n + (c - 48))
    else n

/-- OtoL of tarfn.c: octal-ASCII to number over a fixed-width field. -/
def OtoL (s : List Nat) (size : Int) : Nat :=
  otolDigits (otolSkip s size).1 (otolSkip s size).2 0

/-- StoC of tarfn.c: the value of a fixed-width field as a C string, namely
the bytes up to the first NUL or the end of the field. -/
def StoC (s : List Nat) : List Nat := s.takeWhile (fun c => decide (c ≠ 0))

/-- The value of a NUL-terminated C string stored in a byte buffer: the
bytes up to the first NUL.  Used to model strlen / strdup on TarInfo.Name
buffers inside TarExtractor. -/
def cstr (l : List Nat) : List Nat := l.takeWhile (fun c => decide (c ≠ 0))

/-- strlen on a byte buffer holding a NUL-terminated string. -/
def cstrlen (l : List Nat) : Nat := (cstr l).length

/-- The check name[0] == NUL of tarfn.c, on a modelled byte buffer. -/
def cstrIsEmpty (l : List Nat) : Bool := l.headD 0 = 0

/-- The fixed-width field of a raw block starting at byte offset off. -/
def field (block : List Nat) (off len : Nat) : List Nat :=
  (block.drop off).take len

/-- First six bytes of TAR_MAGIC_USTAR, the string ustar followed by NUL. -/
def TAR_MAGIC_USTAR : List Nat := [117, 115, 116, 97, 114, 0]

/-- First six bytes of TAR_MAGIC_GNU, the string ustar followed by space. -/
def TAR_MAGIC_GNU : List Nat := [117, 115, 116, 97, 114, 32]

/-- get_prefix_name of tarfn.c: concatenate the ustar path-prefix field, a
slash, and the name field, each converted by StoC. -/
def get_prefix_name (block : List Nat) : List Nat :=
  StoC (field block 345 155) ++ [47] ++ StoC (field block 0 100)

/-- DecodeTarHeader of tarfn.c: decode one 512-byte block into a TarInfo
and report whether the declared checksum matches the sum of the block's
bytes with the checksum field itself treated as eight ASCII spaces.
Field offsets follow struct TarHeader: Name at 0, Mode at 100, UserID at
108, GroupID at 116, Size at 124, ModificationTime at 136, Checksum at
148, LinkFlag at 156, LinkName at 157, MagicNumber at 257, MajorDevice at
329, MinorDevice at 337, Prefix at 345. -/
def DecodeTarHeader (block : List Nat) : TarInfo × Bool :=
  let format :=
    if field block 257 6 = TAR_MAGIC_GNU then TarFormat.gnu
    else if field block 257 6 = TAR_MAGIC_USTAR then TarFormat.ustar
    else TarFormat.old
  let name :=
    if format = TarFormat.ustar ∧ block.getD 345 0 ≠ 0 then get_prefix_name block
    else StoC (field block 0 100)
  let checksum := OtoL (field block 148 8) 8
  let sum := 32 * 8 + (field block 0 148).sum + (field block 156 356).sum
  (⟨format, name, StoC (field block 157 100),
    OtoL (field block 100 8) 8,
    OtoL (field block 124 12) 12,
    OtoL (field block 136 12) 12,
    (OtoL (field block 329 8) 8 % 256) * 256 + OtoL (field block 337 8) 8 % 256,
    OtoL (field block 108 8) 8,
    OtoL (field block 116 8) 8,
    block.getD 156 0⟩,
   decide (sum = checksum))

/-- The externally supplied operation set (struct tar_operations), minus
the byte-source read which is modelled as a list of read results.  Each
operation returns a status. -/
structure TarOps where
  extract_file : TarInfo → Int
  mkdir : TarInfo → Int
  link : TarInfo → Int
  symlink : TarInfo → Int
  mknod : TarInfo → Int

/-- Trace of externally observable operation calls made by TarExtractor,
plus sym_queue instrumentation marking the processing point at which a
symbolic-link entry is appended to the deferred queue (sym_queue is not an
external call; the external symlink call is recorded as sym_link). -/
inductive Event
  | ext_file (h : TarInfo)
  | mk_dir (h : TarInfo)
  | hd_link (h : TarInfo)
  | sym_queue (h : TarInfo)
  | sym_link (h : TarInfo)
  | mk_nod (h : TarInfo)
deriving DecidableEq

/-- True exactly on an external symlink-creation call event. -/
def isSymCall : Event → Bool
  | Event.sym_link _ => true
  | _ => false

/-- Project the entry queued by a sym_queue instrumentation event. -/
def symQueuedOf : Event → Option TarInfo
  | Event.sym_queue h => some h
  | _ => none

/-- The GNU long-name/long-link continuation read loop of TarExtractor
(the for loop over long_read).  Consumes whole 512-byte payload blocks
from the read stream, accumulating min(long_read, 512) bytes from each.
Returns the status after the loop (512 when the loop ran to completion,
mirroring the C variable still holding the successful header-read count;
-1 for a partial positive read; the raw status for a zero or negative
read), the accumulated buffer, and the remaining read results.  An
exhausted read list models the byte source returning 0 (end of stream). -/
def readLong (long_read : Int) (reads : List (Int × List Nat)) (acc : List Nat) :
    Int × List Nat × List (Int × List Nat) :=
  if _h : 0 < long_read then
    match reads with
    | [] => (0, acc, [])
    | (st, buf) :: rest =>
      if st ≠ 512 then (if 0 < st then -1 else st, acc, rest)
      else readLong (long_read - 512) rest (acc ++ buf.take (min long_read 512).toNat)
  else
    (512, acc, reads)
termination_by long_read.toNat
decreasing_by omega

/-- The entry classification switch of TarExtractor (tarfn.c lines 233 to
269 and the default case), applied to the effective entry after any
long-name/long-link override.  Returns the operation status, the emitted
events, and the entries appended to the deferred-symlink queue; none
models the default case (bad header field).  The GNU long marker types are
handled by the caller and never reach this function. -/
def dispatchEntry (ops : TarOps) (h : TarInfo) :
    Option (Int × List Event × List TarInfo) :=
  if h.Typ = NormalFile0 ∨ h.Typ = NormalFile1 then
    if (cstr h.Name).getLastD 0 ≠ 47 then
      some (ops.extract_file h, [Event.ext_file h], [])
    else
      let h2 := { h with Name := h.Name.set (cstrlen h.Name - 1) 0 }
      some (ops.mkdir h2, [Event.mk_dir h2], [])
  else if h.Typ = Directory then
    let h2 :=
      if (cstr h.Name).getLastD 0 = 47 then
        { h with Name := h.Name.set (cstrlen h.Name - 1) 0 }
      else h
    some (ops.mkdir h2, [Event.mk_dir h2], [])
  else if h.Typ = HardLink then
    some (ops.link h, [Event.hd_link h], [])
  else if h.Typ = SymbolicLink then
    let h2 := { h with Name := cstr h.Name, LinkName := cstr h.LinkName }
    some (0, [Event.sym_queue h2], [h2])
  else if h.Typ = CharacterDevice ∨ h.Typ = BlockDevice ∨ h.Typ = FIFO then
    some (ops.mknod h, [Event.mk_nod h], [])
  else
    none

/-- Outcome of one iteration of the TarExtractor while loop after a full
header block was read: either the loop stops with a status, or it
continues on the remaining reads with updated pending long-name and
long-link slots. -/
inductive StepRes
  | halt (st : Int) (evs : List Event) (q : List TarInfo)
  | next (rest2 : List (Int × List Nat)) (pn2 pl2 : Option (List Nat))
      (evs : List Event) (q : List TarInfo)
deriving DecidableEq

/-- One iteration of the TarExtractor while loop body on a full 512-byte
header block buf, with pending long-name/long-link slots pn and pl and
remaining read results rest.  Mirrors tarfn.c lines 201 to 328: decode,
end-of-tape / checksum handling, long override and slot clearing, empty
name check, the type switch, and the GNU continuation reassembly. -/
def tarStep (ops : TarOps) (buf : List Nat) (pn pl : Option (List Nat))
    (rest : List (Int × List Nat)) : StepRes :=
  let d := DecodeTarHeader buf
  if d.2 = false then
    StepRes.halt (if cstrIsEmpty d.1.Name then 0 else -1) [] []
  else if d.1.Typ = GNU_LONGLINK ∨ d.1.Typ = GNU_LONGNAME then
    if cstrIsEmpty d.1.Name then StepRes.halt (-1) [] []
    else
      let r := readLong (d.1.Size : Int) rest []
      if r.1 < 0 then StepRes.halt r.1 [] []
      else
        StepRes.next r.2.2
          (if d.1.Typ = GNU_LONGNAME then some r.2.1 else pn)
          (if d.1.Typ = GNU_LONGLINK then some r.2.1 else pl)
          [] []
  else
    let h := { d.1 with Name := pn.getD d.1.Name, LinkName := pl.getD d.1.LinkName }
    if cstrIsEmpty h.Name then StepRes.halt (-1) [] []
    else
      match dispatchEntry ops h with
      | none => StepRes.halt (-1) [] []
      | some (st, evs, q) =>
        if st ≠ 0 then StepRes.halt st evs q
        else StepRes.next rest none none evs q

/-- Fuel-indexed main loop of TarExtractor.  Each iteration consumes at
least one element of the read list, so any fuel exceeding the list length
gives the loop's true result (tarLoopF_congr below); the fuel-exhausted
value is never reached from the tarLoop wrapper.  Returns the loop exit
status, the event trace, and the deferred-symlink queue in append order. -/
def tarLoopF (ops : TarOps) :
    Nat → List (Int × List Nat) → Option (List Nat) → Option (List Nat) →
    Int × List Event × List TarInfo
  | 0, _, _, _ => (-1, [], [])
  | fuel + 1, reads, pn, pl =>
    match reads with
    | [] => (0, [], [])
    | (st0, buf) :: rest =>
      if st0 ≠ 512 then (st0, [], [])
      else
        match tarStep ops buf pn pl rest with
        | StepRes.halt st evs q => (st, evs, q)
        | StepRes.next rest2 pn2 pl2 evs q =>
          let r := tarLoopF ops fuel rest2 pn2 pl2
          (r.1, evs ++ r.2.1, q ++ r.2.2)

/-- The Running phase of TarExtractor: the while loop of tarfn.c lines 198
to 329, starting from given pending long-name/long-link slots. -/
def tarLoop (ops : TarOps) (reads : List (Int × List Nat))
    (pn pl : Option (List Nat)) : Int × List Event × List TarInfo :=
  tarLoopF ops (reads.length + 1) reads pn pl

/-- The drain phase of TarExtractor (tarfn.c lines 331 to 339): walk the
deferred-symlink queue in order; while the status is 0 invoke the external
symlink operation on each entry; once the status is non-zero only release
the remaining entries without calling. -/
def tarDrain (ops : TarOps) (status : Int) (queue : List TarInfo) :
    Int × List Event :=
  match queue with
  | [] => (status, [])
  | h :: rest =>
    if status = 0 then
      let st := ops.symlink h
      let r := tarDrain ops st rest
      (r.1, Event.sym_link h :: r.2)
    else tarDrain ops status rest

/-- TarExtractor of tarfn.c: run the main loop from empty pending slots,
drain the deferred-symlink queue, and normalize a positive residual status
to -1 (read partial header record).  The byte source is modelled as the
list of successive read results; an exhausted list models a read returning
0 (end of stream). -/
def TarExtractor (ops : TarOps) (reads : List (Int × List Nat)) :
    Int × List Event :=
  let r := tarLoop ops reads none none
  let d := tarDrain ops r.1 r.2.2
  (if 0 < d.1 then -1 else d.1, r.2.1 ++ d.2)

/-- Spec-side recomputation for the checksum property: the sum of the
block's bytes with every byte whose index lies inside the checksum field
(offsets 148 to 155) replaced by the ASCII space value 32.  The second
argument is the block offset of the first list element. -/
def blankedSum : List Nat → Nat → Nat
  | [], _ => 0
  | c :: rest, i => (if 148 ≤ i ∧ i < 156 then 32 else c) + blankedSum rest (i + 1)

/-- Big-endian octal-ASCII digits of n with fixed width w; scaffolding for
constructing concrete header blocks. -/
def octalAscii : Nat → Nat → List Nat
  | 0, _ => []
  | w + 1, n => octalAscii w (n / 8) ++ [48 + n % 8]

/-- A numeric header field of width w: w - 1 octal digits then a NUL. -/
def octField (w n : Nat) : List Nat := octalAscii (w - 1) n ++ [0]

/-- Pad a byte list with NULs to length n. -/
def padTo (l : List Nat) (n : Nat) : List Nat :=
  l ++ List.replicate (n - l.length) 0

/-- A raw 512-byte header block from the given fields, with the checksum
field bytes supplied explicitly; numeric fields other than size hold 0. -/
def mkBlockRaw (name : List Nat) (size typ : Nat)
    (linkname magic pfx cks : List Nat) : List Nat :=
  padTo name 100 ++ octField 8 0 ++ octField 8 0 ++ octField 8 0 ++
    octField 12 size ++ octField 12 0 ++ cks ++ [typ] ++ padTo linkname 100 ++
    padTo magic 8 ++ List.replicate 32 0 ++ List.replicate 32 0 ++
    octField 8 0 ++ octField 8 0 ++ padTo pfx 155 ++ List.replicate 12 0

/-- A header block whose checksum field is computed from the same block
with the checksum bytes set to ASCII spaces, so that the block passes
DecodeTarHeader's checksum validation. -/
def mkBlock (name : List Nat) (size typ : Nat)
    (linkname magic pfx : List Nat) : List Nat :=
  mkBlockRaw name size typ linkname magic pfx
    (octField 8 (mkBlockRaw name size typ linkname magic pfx
      (List.replicate 8 32)).sum)

/-- Modelled from the spec: a ustar encoder for the round-trip property.
The given sources contain no tar writer; following the spec's wire-format
section, a long path is split into the 155-byte path-prefix field and the
100-byte name field, the magic is the POSIX ustar signature, the entry is
a regular file, and the checksum field is filled so the block validates. -/
def encodeUstar (pfx nm : List Nat) : List Nat :=
  mkBlock nm 0 48 [] [117, 115, 116, 97, 114, 0, 48, 48] pfx

/-- Operation set returning success everywhere; witness scaffolding. -/
def opsZero : TarOps :=
  ⟨fun _ => 0, fun _ => 0, fun _ => 0, fun _ => 0, fun _ => 0⟩

/-- Operation set whose extract_file returns the positive status 5. -/
def opsFive : TarOps :=
  ⟨fun _ => 5, fun _ => 0, fun _ => 0, fun _ => 0, fun _ => 0⟩

/-- Legacy (all-zero) magic field for concrete witness blocks. -/
def oldMagic : List Nat := List.replicate 8 0

/-- Witness archive block: directory named d followed by a slash. -/
def w1dir : List Nat := mkBlock [100, 47] 0 53 [] oldMagic []

/-- Witness archive block: symbolic link a pointing to t. -/
def w1sym1 : List Nat := mkBlock [97] 0 50 [116] oldMagic []

/-- Witness archive block: symbolic link b pointing to u. -/
def w1sym2 : List Nat := mkBlock [98] 0 50 [117] oldMagic []

/-- Witness archive block: regular file named f. -/
def w1file : List Nat := mkBlock [102] 0 48 [] oldMagic []

/-- Witness archive: directory, two symlinks, a file, then a terminator
block of 512 zero bytes. -/
def w1reads : List (Int × List Nat) :=
  [(512, w1dir), (512, w1sym1), (512, w1sym2), (512, w1file),
   (512, List.replicate 512 0)]

/-- A block of 512 zero bytes: checksum-invalid with an empty name. -/
def zeroBlock : List Nat := List.replicate 512 0

/-- A checksum-invalid block with the non-empty name A. -/
def badNameBlock : List Nat := (List.replicate 512 0).set 0 65

/-- Witness block: GNU long-name marker of declared size 8. -/
def c4marker : List Nat := mkBlock [108] 8 76 [] oldMagic []

/-- Witness payload block: the bytes h i NUL padded to 512 bytes. -/
def c4payload : List Nat := padTo [104, 105] 512

/-- Witness block: hard-link entry with ignored name x and target t. -/
def c4real : List Nat := mkBlock [120] 0 49 [116] oldMagic []

/-- Witness archive for the long-name protocol: marker, one payload
block, then the real entry. -/
def c4reads : List (Int × List Nat) :=
  [(512, c4marker), (512, c4payload), (512, c4real)]

/-- Counterexample block: GNU long-name marker declaring size 512 with no
following payload block. -/
def c5marker : List Nat := mkBlock [108] 512 76 [] oldMagic []

/-- Witness block: GNU long-name marker declaring 1024 payload bytes, so
that one full payload block leaves the continuation still expecting more. -/
def c5bigMarker : List Nat := mkBlock [108] 1024 76 [] oldMagic []

/-- Counterexample block: regular file named a, no trailing slash. -/
def c6file : List Nat := mkBlock [97] 0 48 [] oldMagic []

/-- Witness block: regular-file entry whose name e ends in a slash. -/
def c8slashFile : List Nat := mkBlock [101, 47] 0 48 [] oldMagic []

theorem readLong_rest_le (l : Int) (reads : List (Int × List Nat)) (acc : List Nat) :
    (readLong l reads acc).2.2.length ≤ reads.length := by
  induction reads generalizing l acc with
  | nil =>
    rw [readLong]
    split
    · simp
    · simp
  | cons p rest ih =>
    rw [readLong]
    split
    · obtain ⟨st, buf⟩ := p
      dsimp only
      split
      · simp
      · exact le_trans (ih _ _) (Nat.le_succ _)
    · simp

theorem tarStep_rest_le (ops : TarOps) (buf : List Nat)
    (pn pl : Option (List Nat)) (rest : List (Int × List Nat))
    (rest2 : List (Int × List Nat)) (pn2 pl2 : Option (List Nat))
    (evs : List Event) (q : List TarInfo)
    (hstep : tarStep ops buf pn pl rest = StepRes.next rest2 pn2 pl2 evs q) :
    rest2.length ≤ rest.length := by
  simp only [tarStep] at hstep
  split at hstep
  · exact absurd hstep (by simp)
  · split at hstep
    · split at hstep
      · exact absurd hstep (by simp)
      · split at hstep
        · exact absurd hstep (by simp)
        · rw [StepRes.next.injEq] at hstep
          obtain ⟨h1, -⟩ := hstep
          rw [← h1]
          exact readLong_rest_le _ _ _
    · split at hstep
      · exact absurd hstep (by simp)
      · split at hstep
        · exact absurd hstep (by simp)
        · split at hstep
          · exact absurd hstep (by simp)
          · rw [StepRes.next.injEq] at hstep
            obtain ⟨h1, -⟩ := hstep
            rw [← h1]

theorem tarLoopF_succ (ops : TarOps) (f : Nat) (reads : List (Int × List Nat))
    (pn pl : Option (List Nat)) :
    tarLoopF ops (f + 1) reads pn pl =
      match reads with
      | [] => (0, [], [])
      | (st0, buf) :: rest =>
        if st0 ≠ 512 then (st0, [], [])
        else
          match tarStep ops buf pn pl rest with
          | StepRes.halt st evs q => (st, evs, q)
          | StepRes.next rest2 pn2 pl2 evs q =>
            ((tarLoopF ops f rest2 pn2 pl2).1,
             evs ++ (tarLoopF ops f rest2 pn2 pl2).2.1,
             q ++ (tarLoopF ops f rest2 pn2 pl2).2.2) := rfl

theorem tarLoopF_congr (ops : TarOps) :
    ∀ f g reads (pn pl : Option (List Nat)), reads.length < f → reads.length < g →
      tarLoopF ops f reads pn pl = tarLoopF ops g reads pn pl := by
  intro f
  induction f with
  | zero => intro g reads pn pl hf; omega
  | succ f ih =>
    intro g reads pn pl hf hg
    match g, hg with
    | g + 1, hg =>
      cases reads with
      | nil => rfl
      | cons p rest =>
        obtain ⟨st0, buf⟩ := p
        rw [tarLoopF_succ, tarLoopF_succ]
        dsimp only
        by_cases hst : st0 ≠ 512
        · rw [if_pos hst, if_pos hst]
        · rw [if_neg hst, if_neg hst]
          cases hstep : tarStep ops buf pn pl rest with
          | halt st evs q => rfl
          | next rest2 pn2 pl2 evs q =>
            have hle := tarStep_rest_le ops buf pn pl rest rest2 pn2 pl2 evs q hstep
            simp only [List.length_cons] at hf hg
            show ((tarLoopF ops f rest2 pn2 pl2).1,
                evs ++ (tarLoopF ops f rest2 pn2 pl2).2.1,
                q ++ (tarLoopF ops f rest2 pn2 pl2).2.2) =
              ((tarLoopF ops g rest2 pn2 pl2).1,
                evs ++ (tarLoopF ops g rest2 pn2 pl2).2.1,
                q ++ (tarLoopF ops g rest2 pn2 pl2).2.2)
            rw [ih g rest2 pn2 pl2 (by omega) (by omega)]

theorem tarLoop_nil (ops : TarOps) (pn pl : Option (List Nat)) :
    tarLoop ops [] pn pl = (0, [], []) := rfl

theorem tarLoop_short (ops : TarOps) (st0 : Int) (buf : List Nat)
    (rest : List (Int × List Nat)) (pn pl : Option (List Nat))
    (hst : st0 ≠ 512) :
    tarLoop ops ((st0, buf) :: rest) pn pl = (st0, [], []) := by
  show tarLoopF ops (rest.length + 1 + 1) ((st0, buf) :: rest) pn pl = _
  rw [tarLoopF_succ]
  dsimp only
  rw [if_pos hst]

theorem tarLoop_cons (ops : TarOps) (buf : List Nat)
    (rest : List (Int × List Nat)) (pn pl : Option (List Nat)) :
    tarLoop ops ((512, buf) :: rest) pn pl =
      match tarStep ops buf pn pl rest with
      | StepRes.halt st evs q => (st, evs, q)
      | StepRes.next rest2 pn2 pl2 evs q =>
        ((tarLoop ops rest2 pn2 pl2).1,
         evs ++ (tarLoop ops rest2 pn2 pl2).2.1,
         q ++ (tarLoop ops rest2 pn2 pl2).2.2) := by
  show tarLoopF ops (rest.length + 1 + 1) ((512, buf) :: rest) pn pl = _
  rw [tarLoopF_succ]
  dsimp only
  rw [if_neg (by simp)]
  cases hstep : tarStep ops buf pn pl rest with
  | halt st evs q => rfl
  | next rest2 pn2 pl2 evs q =>
    have hle := tarStep_rest_le ops buf pn pl rest rest2 pn2 pl2 evs q hstep
    dsimp only
    rw [tarLoopF_congr ops (rest.length + 1) (rest2.length + 1) rest2 pn2 pl2
      (by omega) (by omega)]
    rfl

/-- Events produced by one loop iteration outcome. -/
def stepEvs : StepRes → List Event
  | StepRes.halt _ evs _ => evs
  | StepRes.next _ _ _ evs _ => evs

/-- Queue entries produced by one loop iteration outcome. -/
def stepQ : StepRes → List TarInfo
  | StepRes.halt _ _ q => q
  | StepRes.next _ _ _ _ q => q

theorem dispatchEntry_inv (ops : TarOps) (h : TarInfo) (st : Int)
    (evs : List Event) (q : List TarInfo)
    (hd : dispatchEntry ops h = some (st, evs, q)) :
    (∀ e ∈ evs, isSymCall e = false) ∧ q = evs.filterMap symQueuedOf := by
  simp only [dispatchEntry] at hd
  repeat' split at hd
  all_goals
    first
    | (simp only [Option.some.injEq, Prod.mk.injEq] at hd
       obtain ⟨-, h2, h3⟩ := hd
       subst h2
       subst h3
       simp [isSymCall, symQueuedOf])
    | exact absurd hd (by simp)

theorem tarStep_inv (ops : TarOps) (buf : List Nat) (pn pl : Option (List Nat))
    (rest : List (Int × List Nat)) :
    (∀ e ∈ stepEvs (tarStep ops buf pn pl rest), isSymCall e = false) ∧
      stepQ (tarStep ops buf pn pl rest) =
        (stepEvs (tarStep ops buf pn pl rest)).filterMap symQueuedOf := by
  simp only [tarStep]
  split
  · simp [stepEvs, stepQ]
  · split
    · split
      · simp [stepEvs, stepQ]
      · split
        · simp [stepEvs, stepQ]
        · simp [stepEvs, stepQ]
    · split
      · simp [stepEvs, stepQ]
      · split
        · simp [stepEvs, stepQ]
        · rename_i hd
          split
          · simp only [stepEvs, stepQ]
            exact dispatchEntry_inv ops _ _ _ _ hd
          · simp only [stepEvs, stepQ]
            exact dispatchEntry_inv ops _ _ _ _ hd

theorem tarLoop_inv_aux (ops : TarOps) :
    ∀ n reads (pn pl : Option (List Nat)), reads.length ≤ n →
      (∀ e ∈ (tarLoop ops reads pn pl).2.1, isSymCall e = false) ∧
        (tarLoop ops reads pn pl).2.2 =
          (tarLoop ops reads pn pl).2.1.filterMap symQueuedOf := by
  intro n
  induction n with
  | zero =>
    intro reads pn pl hlen
    rw [List.length_eq_zero.mp (Nat.le_zero.mp hlen)]
    simp [tarLoop_nil]
  | succ n ih =>
    intro reads pn pl hlen
    cases reads with
    | nil => simp [tarLoop_nil]
    | cons p rest =>
      obtain ⟨st0, buf⟩ := p
      by_cases hst : st0 = 512
      · subst hst
        rw [tarLoop_cons]
        cases hstep : tarStep ops buf pn pl rest with
        | halt st evs q =>
          have := tarStep_inv ops buf pn pl rest
          rw [hstep] at this
          simpa [stepEvs, stepQ] using this
        | next rest2 pn2 pl2 evs q =>
          have hs := tarStep_inv ops buf pn pl rest
          rw [hstep] at hs
          simp only [stepEvs, stepQ] at hs
          have hle := tarStep_rest_le ops buf pn pl rest rest2 pn2 pl2 evs q hstep
          simp only [List.length_cons] at hlen
          have hrec := ih rest2 pn2 pl2 (by omega)
          dsimp only
          constructor
          · intro e he
            rcases List.mem_append.mp he with h1 | h2
            · exact hs.1 e h1
            · exact hrec.1 e h2
          · rw [List.filterMap_append, hs.2, hrec.2]
      · rw [tarLoop_short ops st0 buf rest pn pl hst]
        simp

theorem tarLoop_inv (ops : TarOps) (reads : List (Int × List Nat))
    (pn pl : Option (List Nat)) :
    (∀ e ∈ (tarLoop ops reads pn pl).2.1, isSymCall e = false) ∧
      (tarLoop ops reads pn pl).2.2 =
        (tarLoop ops reads pn pl).2.1.filterMap symQueuedOf :=
  tarLoop_inv_aux ops reads.length reads pn pl le_rfl

theorem tarDrain_ne (ops : TarOps) (st : Int) (q : List TarInfo)
    (hst : st ≠ 0) : tarDrain ops st q = (st, []) := by
  induction q with
  | nil => rfl
  | cons h t ih => simp [tarDrain, hst, ih]

theorem tarDrain_zero (ops : TarOps) (q : List TarInfo) :
    ∃ k, (tarDrain ops 0 q).2 = (q.take k).map Event.sym_link := by
  induction q with
  | nil => exact ⟨0, rfl⟩
  | cons h t ih =>
    by_cases hs : ops.symlink h = 0
    · obtain ⟨k, hk⟩ := ih
      refine ⟨k + 1, ?_⟩
      simp only [tarDrain, if_pos rfl]
      rw [hs] at *
      simp [hk]
    · refine ⟨1, ?_⟩
      simp only [tarDrain, if_pos rfl]
      rw [tarDrain_ne ops _ t hs]
      simp

theorem readLong_full (blocks : List (Int × List Nat)) :
    ∀ (S : Int) (rest : List (Int × List Nat)) (acc : List Nat),
      0 < S →
      (∀ p ∈ blocks, p.1 = 512 ∧ p.2.length = 512) →
      blocks.length = (S.toNat + 511) / 512 →
      readLong S (blocks ++ rest) acc =
        (512, acc ++ ((blocks.map Prod.snd).flatten).take S.toNat, rest) := by
  induction blocks with
  | nil =>
    intro S rest acc hS hall hlen
    exfalso
    simp only [List.length_nil] at hlen
    omega
  | cons p bs ih =>
    intro S rest acc hS hall hlen
    obtain ⟨st, b⟩ := p
    obtain ⟨hst, hb⟩ := hall (st, b) (List.mem_cons_self _ _)
    have hb2 : b.length = 512 := hb
    subst hst
    dsimp only [List.cons_append]
    rw [readLong.eq_def, dif_pos hS]
    dsimp only
    rw [if_neg (by simp)]
    by_cases hS512 : S ≤ 512
    · have hbs : bs = [] := by
        have hzero : bs.length = 0 := by
          simp only [List.length_cons] at hlen
          omega
        exact List.length_eq_zero.mp hzero
      subst hbs
      have hmin : min S 512 = S := min_eq_left hS512
      rw [hmin, readLong.eq_def, dif_neg (by omega)]
      simp only [List.map_cons, List.map_nil, List.flatten_cons, List.flatten_nil,
        List.append_nil, List.nil_append]
    · have hSn : 513 ≤ S.toNat := by omega
      have hmin : min S 512 = (512 : Int) := min_eq_right (by omega)
      rw [hmin]
      have htake : b.take ((512 : Int)).toNat = b :=
        List.take_of_length_le (by rw [hb2]; decide)
      rw [htake]
      have htn : (S - 512).toNat = S.toNat - 512 := by omega
      have hcnt : bs.length = ((S - 512).toNat + 511) / 512 := by
        rw [htn]
        simp only [List.length_cons] at hlen
        omega
      rw [ih (S - 512) rest (acc ++ b) (by omega)
        (fun p hp => hall p (List.mem_cons_of_mem _ hp)) hcnt]
      rw [htn]
      simp only [List.map_cons, List.flatten_cons]
      have h1 : List.take S.toNat b = b := List.take_of_length_le (by omega)
      have h2 : List.take S.toNat (b ++ ((bs.map Prod.snd).flatten)) =
          b ++ List.take (S.toNat - 512) ((bs.map Prod.snd).flatten) := by
        rw [List.take_append_eq_append_take, h1, hb2]
      rw [h2]
      simp

/-- C4: a GNU long-name (or long-link) marker of declared size S followed
by ceil(S / 512) full payload blocks and a checksum-valid real entry makes
the loop dispatch the real entry with its Name (or LinkName) field
replaced by exactly the first S bytes of the concatenated payload,
whatever the real entry's own name field holds, and the loop continues
after the dispatch with both pending slots cleared. -/
theorem c4_longname_override (ops : TarOps) (mbuf rbuf : List Nat)
    (blocks rest : List (Int × List Nat)) (pn pl : Option (List Nat))
    (mh rh : TarInfo) (st : Int) (evs : List Event) (q : List TarInfo)
    (hmdec : DecodeTarHeader mbuf = (mh, true))
    (hmty : mh.Typ = GNU_LONGLINK ∨ mh.Typ = GNU_LONGNAME)
    (hmne : cstrIsEmpty mh.Name = false)
    (hS : 0 < mh.Size)
    (hblocks : ∀ p ∈ blocks, p.1 = 512 ∧ p.2.length = 512)
    (hcount : blocks.length = (mh.Size + 511) / 512)
    (hrdec : DecodeTarHeader rbuf = (rh, true))
    (hrty : ¬(rh.Typ = GNU_LONGLINK ∨ rh.Typ = GNU_LONGNAME))
    (hne2 : cstrIsEmpty
      ((if mh.Typ = GNU_LONGNAME then
          some (((blocks.map Prod.snd).flatten).take mh.Size)
        else pn).getD rh.Name) = false)
    (hdisp : dispatchEntry ops
      { rh with
          Name := (if mh.Typ = GNU_LONGNAME then
              some (((blocks.map Prod.snd).flatten).take mh.Size)
            else pn).getD rh.Name,
          LinkName := (if mh.Typ = GNU_LONGLINK then
              some (((blocks.map Prod.snd).flatten).take mh.Size)
            else pl).getD rh.LinkName } = some (st, evs, q))
    (hst : st = 0) :
    tarLoop ops ((512, mbuf) :: (blocks ++ (512, rbuf) :: rest)) pn pl =
      ((tarLoop ops rest none none).1,
       evs ++ (tarLoop ops rest none none).2.1,
       q ++ (tarLoop ops rest none none).2.2) := by
  subst hst
  have hcast : ((mh.Size : Int)).toNat = mh.Size := Int.toNat_natCast mh.Size
  have hrl : readLong (mh.Size : Int) (blocks ++ (512, rbuf) :: rest) [] =
      (512, ((blocks.map Prod.snd).flatten).take mh.Size, (512, rbuf) :: rest) := by
    rw [readLong_full blocks (mh.Size : Int) ((512, rbuf) :: rest) []
      (by exact_mod_cast hS) hblocks (by rw [hcast]; exact hcount)]
    rw [hcast]
    simp
  have hstep1 : tarStep ops mbuf pn pl (blocks ++ (512, rbuf) :: rest) =
      StepRes.next ((512, rbuf) :: rest)
        (if mh.Typ = GNU_LONGNAME then
          some (((blocks.map Prod.snd).flatten).take mh.Size) else pn)
        (if mh.Typ = GNU_LONGLINK then
          some (((blocks.map Prod.snd).flatten).take mh.Size) else pl)
        [] [] := by
    simp only [tarStep, hmdec]
    simp [hmty, hmne, hrl]
  have hstep2 : tarStep ops rbuf
      (if mh.Typ = GNU_LONGNAME then
        some (((blocks.map Prod.snd).flatten).take mh.Size) else pn)
      (if mh.Typ = GNU_LONGLINK then
        some (((blocks.map Prod.snd).flatten).take mh.Size) else pl) rest =
      StepRes.next rest none none evs q := by
    simp only [tarStep, hrdec]
    simp [hrty, hne2, hdisp]
  rw [tarLoop_cons, hstep1]
  dsimp only
  rw [tarLoop_cons, hstep2]
  dsimp only
  simp

/-- The effective entry dispatched in the c4 witness archive: the hard
link with its name replaced by the first 8 payload bytes, namely the bytes
h i followed by six NULs. -/
def c4eff : TarInfo :=
  { (DecodeTarHeader c4real).1 with Name := [104, 105, 0, 0, 0, 0, 0, 0] }

/-- C4 witness: the concrete marker of size 8, one payload block holding
the bytes h i NUL and padding, and a hard-link entry; the dispatched entry
carries exactly the first 8 payload bytes as its name and the loop goes on
with cleared slots. -/
theorem c4_longname_override_witness :
    ((DecodeTarHeader c4marker).1.Typ = GNU_LONGNAME ∧
     (DecodeTarHeader c4marker).1.Size = 8 ∧
     c4payload.length = 512 ∧
     dispatchEntry opsZero c4eff = some (0, [Event.hd_link c4eff], []) ∧
     c4eff.Name = [104, 105, 0, 0, 0, 0, 0, 0]) ∧
    tarLoop opsZero
        ((512, c4marker) :: ([(512, c4payload)] ++ (512, c4real) :: []))
        none none =
      ((tarLoop opsZero [] none none).1,
       [Event.hd_link c4eff] ++ (tarLoop opsZero [] none none).2.1,
       [] ++ (tarLoop opsZero [] none none).2.2) :=
  ⟨⟨by rfl, by rfl, by rfl, by rfl, by rfl⟩,
    c4_longname_override opsZero c4marker c4real [(512, c4payload)] [] none none
      (DecodeTarHeader c4marker).1 (DecodeTarHeader c4real).1 0
      [Event.hd_link c4eff] [] (by rfl) (Or.inr (by rfl)) (by rfl) (by decide)
      (by decide) (by decide) (by rfl) (by decide) (by rfl) (by rfl) rfl⟩

/-- C5 counterexample: a GNU long-name marker declaring 512 payload bytes
followed by end of stream (a zero-length read where a continuation block
is expected) makes TarExtractor return 0, clean success, not a
truncated-archive error. -/
theorem c5_counterexample :
    (DecodeTarHeader c5marker).1.Typ = GNU_LONGNAME ∧
    (DecodeTarHeader c5marker).1.Size = 512 ∧
    TarExtractor opsZero [(512, c5marker)] = (0, []) := by
  refine ⟨by rfl, by rfl, ?_⟩
  have hrl : readLong ((DecodeTarHeader c5marker).1.Size : Int) [] [] =
      (0, [], []) := by
    rw [readLong.eq_def, dif_pos (show (0 : Int) < ((DecodeTarHeader c5marker).1.Size : Int) by decide)]
  have hd2 : (DecodeTarHeader c5marker).2 = true := by rfl
  have hTyp : (DecodeTarHeader c5marker).1.Typ = 76 := by rfl
  have hname : cstrIsEmpty (DecodeTarHeader c5marker).1.Name = false := by rfl
  have hstep : tarStep opsZero c5marker none none [] =
      StepRes.next [] (some []) none [] [] := by
    simp only [tarStep, hd2, hTyp, hname, GNU_LONGLINK, GNU_LONGNAME, hrl]
    norm_num
  have hloop : tarLoop opsZero [(512, c5marker)] none none = (0, [], []) := by
    rw [tarLoop_cons, hstep]
    rfl
  show ((if 0 < (tarDrain opsZero (tarLoop opsZero [(512, c5marker)] none none).1
      (tarLoop opsZero [(512, c5marker)] none none).2.2).1 then (-1 : Int)
      else (tarDrain opsZero (tarLoop opsZero [(512, c5marker)] none none).1
        (tarLoop opsZero [(512, c5marker)] none none).2.2).1),
    (tarLoop opsZero [(512, c5marker)] none none).2.1 ++
      (tarDrain opsZero (tarLoop opsZero [(512, c5marker)] none none).1
        (tarLoop opsZero [(512, c5marker)] none none).2.2).2) = _
  rw [hloop]
  simp [tarDrain]

theorem readLong_stops (blocks : List (Int × List Nat)) :
    ∀ (S c : Int) (b : List Nat) (rest : List (Int × List Nat)) (acc : List Nat),
      (∀ p ∈ blocks, p.1 = 512 ∧ p.2.length = 512) →
      512 * (blocks.length : Int) < S →
      c ≠ 512 →
      readLong S (blocks ++ (c, b) :: rest) acc =
        ((if 0 < c then -1 else c), acc ++ (blocks.map Prod.snd).flatten, rest) := by
  induction blocks with
  | nil =>
    intro S c b rest acc _ hS hc
    simp only [List.length_nil, Nat.cast_zero, mul_zero] at hS
    dsimp only [List.nil_append]
    rw [readLong.eq_def, dif_pos hS]
    dsimp only
    rw [if_pos hc]
    simp
  | cons p bs ih =>
    intro S c b rest acc hall hS hc
    obtain ⟨st, bb⟩ := p
    obtain ⟨hst, hb⟩ := hall (st, bb) (List.mem_cons_self _ _)
    have hb2 : bb.length = 512 := hb
    subst hst
    simp only [List.length_cons] at hS
    push_cast at hS
    dsimp only [List.cons_append]
    rw [readLong.eq_def, dif_pos (by omega)]
    dsimp only
    rw [if_neg (by simp)]
    have hmin : min S 512 = (512 : Int) := min_eq_right (by omega)
    rw [hmin]
    have htake : bb.take ((512 : Int)).toNat = bb :=
      List.take_of_length_le (by rw [hb2]; decide)
    rw [htake]
    rw [ih (S - 512) c b rest (acc ++ bb)
      (fun p hp => hall p (List.mem_cons_of_mem _ hp)) (by omega) hc]
    simp [List.append_assoc]

/-- C5 amended: while a continuation payload block is expected (a marker
was decoded and fewer payload blocks than declared have been read), a
partial read of 1 to 511 bytes (any positive count other than 512) fails
with the truncated-archive error -1, and TarExtractor started there
returns -1; but a zero-length (end-of-stream) read does not fail: the
continuation loop ends with status 0, the partially filled buffer built
from the payload blocks read so far is left pending in the long-name or
long-link slot, and processing continues with the next header read. -/
theorem c5_truncated_continuation (ops : TarOps) (mbuf b : List Nat)
    (c : Int) (blocks rest : List (Int × List Nat)) (pn pl : Option (List Nat))
    (mh : TarInfo)
    (hdec : DecodeTarHeader mbuf = (mh, true))
    (hty : mh.Typ = GNU_LONGLINK ∨ mh.Typ = GNU_LONGNAME)
    (hne : cstrIsEmpty mh.Name = false)
    (hblocks : ∀ p ∈ blocks, p.1 = 512 ∧ p.2.length = 512)
    (hk : 512 * (blocks.length : Int) < (mh.Size : Int)) :
    (0 < c → c ≠ 512 →
      tarLoop ops ((512, mbuf) :: (blocks ++ (c, b) :: rest)) pn pl =
          (-1, [], []) ∧
        TarExtractor ops ((512, mbuf) :: (blocks ++ (c, b) :: rest)) =
          (-1, [])) ∧
    (c = 0 →
      tarLoop ops ((512, mbuf) :: (blocks ++ (c, b) :: rest)) pn pl =
        tarLoop ops rest
          (if mh.Typ = GNU_LONGNAME then
            some ((blocks.map Prod.snd).flatten) else pn)
          (if mh.Typ = GNU_LONGLINK then
            some ((blocks.map Prod.snd).flatten) else pl)) := by
  constructor
  · intro hc hc2
    have hrl := readLong_stops blocks (mh.Size : Int) c b rest [] hblocks hk hc2
    rw [if_pos hc] at hrl
    have hstep1 : ∀ pn' pl' : Option (List Nat),
        tarStep ops mbuf pn' pl' (blocks ++ (c, b) :: rest) =
          StepRes.halt (-1) [] [] := by
      intro pn' pl'
      simp only [tarStep, hdec]
      simp [hty, hne, hrl]
    have hloop1 : ∀ pn' pl' : Option (List Nat),
        tarLoop ops ((512, mbuf) :: (blocks ++ (c, b) :: rest)) pn' pl' =
          (-1, [], []) := by
      intro pn' pl'
      rw [tarLoop_cons, hstep1 pn' pl']
    refine ⟨hloop1 pn pl, ?_⟩
    show ((if 0 < (tarDrain ops
        (tarLoop ops ((512, mbuf) :: (blocks ++ (c, b) :: rest)) none none).1
        (tarLoop ops
          ((512, mbuf) :: (blocks ++ (c, b) :: rest)) none none).2.2).1
        then (-1 : Int)
        else (tarDrain ops
          (tarLoop ops ((512, mbuf) :: (blocks ++ (c, b) :: rest)) none none).1
          (tarLoop ops
            ((512, mbuf) :: (blocks ++ (c, b) :: rest)) none none).2.2).1),
      (tarLoop ops ((512, mbuf) :: (blocks ++ (c, b) :: rest)) none none).2.1 ++
        (tarDrain ops
          (tarLoop ops ((512, mbuf) :: (blocks ++ (c, b) :: rest)) none none).1
          (tarLoop ops
            ((512, mbuf) :: (blocks ++ (c, b) :: rest)) none none).2.2).2) = _
    rw [hloop1 none none]
    simp [tarDrain]
  · intro hc0
    subst hc0
    have hrl := readLong_stops blocks (mh.Size : Int) 0 b rest [] hblocks hk
      (by norm_num)
    rw [if_neg (by norm_num)] at hrl
    have hstep0 : tarStep ops mbuf pn pl (blocks ++ (0, b) :: rest) =
        StepRes.next rest
          (if mh.Typ = GNU_LONGNAME then
            some ((blocks.map Prod.snd).flatten) else pn)
          (if mh.Typ = GNU_LONGLINK then
            some ((blocks.map Prod.snd).flatten) else pl) [] [] := by
      simp only [tarStep, hdec]
      simp [hty, hne, hrl]
    rw [tarLoop_cons, hstep0]
    rfl

/-- C5 amended witness: a long-name marker declaring 1024 bytes followed
by one full payload block and then a 100-byte partial read fails with -1
at every level, while the same marker and payload block followed by a
zero-length read leave the 512 read payload bytes pending in the
long-name slot and processing continues on the remaining (empty) reads. -/
theorem c5_truncated_continuation_witness :
    ((DecodeTarHeader c5bigMarker = ((DecodeTarHeader c5bigMarker).1, true) ∧
      cstrIsEmpty (DecodeTarHeader c5bigMarker).1.Name = false ∧
      512 * (([(512, c4payload)] : List (Int × List Nat)).length : Int) <
        ((DecodeTarHeader c5bigMarker).1.Size : Int)) ∧
    (tarLoop opsZero
        ((512, c5bigMarker) :: ([(512, c4payload)] ++ (100, []) :: []))
        none none = (-1, [], []) ∧
      TarExtractor opsZero
        ((512, c5bigMarker) :: ([(512, c4payload)] ++ (100, []) :: [])) =
        (-1, []))) ∧
    tarLoop opsZero
        ((512, c5bigMarker) :: ([(512, c4payload)] ++ (0, []) :: []))
        none none =
      tarLoop opsZero []
        (if (DecodeTarHeader c5bigMarker).1.Typ = GNU_LONGNAME then
          some ((([(512, c4payload)] :
            List (Int × List Nat)).map Prod.snd).flatten) else none)
        (if (DecodeTarHeader c5bigMarker).1.Typ = GNU_LONGLINK then
          some ((([(512, c4payload)] :
            List (Int × List Nat)).map Prod.snd).flatten) else none) :=
  ⟨⟨⟨by rfl, by rfl, by decide⟩,
    (c5_truncated_continuation opsZero c5bigMarker [] 100 [(512, c4payload)]
      [] none none (DecodeTarHeader c5bigMarker).1 (by rfl) (Or.inr (by rfl))
      (by rfl) (by decide) (by decide)).1 (by decide) (by decide)⟩,
   (c5_truncated_continuation opsZero c5bigMarker [] 0 [(512, c4payload)]
      [] none none (DecodeTarHeader c5bigMarker).1 (by rfl) (Or.inr (by rfl))
      (by rfl) (by decide) (by decide)).2 rfl⟩

/-- C1: for every archive whose Running phase ends successfully, the trace
of TarExtractor is the Running-phase trace, which contains no external
symlink-creation call, followed by the drain-phase trace, which consists
exactly of symlink-creation calls on a prefix of the deferred queue; and
that queue lists the symbolic-link entries in the order in which the
Running phase encountered them in the archive. -/
theorem c1_symlink_deferral (ops : TarOps) (reads : List (Int × List Nat))
    (hrun : (tarLoop ops reads none none).1 = 0) :
    (∃ k, (TarExtractor ops reads).2 =
      (tarLoop ops reads none none).2.1 ++
        (((tarLoop ops reads none none).2.2).take k).map Event.sym_link) ∧
    (∀ e ∈ (tarLoop ops reads none none).2.1, isSymCall e = false) ∧
    (tarLoop ops reads none none).2.2 =
      ((tarLoop ops reads none none).2.1).filterMap symQueuedOf := by
  refine ⟨?_, (tarLoop_inv ops reads none none).1, (tarLoop_inv ops reads none none).2⟩
  obtain ⟨k, hk⟩ := tarDrain_zero ops (tarLoop ops reads none none).2.2
  refine ⟨k, ?_⟩
  show (tarLoop ops reads none none).2.1 ++
      (tarDrain ops (tarLoop ops reads none none).1
        (tarLoop ops reads none none).2.2).2 = _
  rw [hrun, hk]

/-- C1 witness: an archive holding a directory, two symbolic links, a
regular file, and a terminator; the Running phase succeeds and the claim's
conclusion holds at this input. -/
theorem c1_symlink_deferral_witness :
    (tarLoop opsZero w1reads none none).1 = 0 ∧
    ((∃ k, (TarExtractor opsZero w1reads).2 =
      (tarLoop opsZero w1reads none none).2.1 ++
        (((tarLoop opsZero w1reads none none).2.2).take k).map Event.sym_link) ∧
    (∀ e ∈ (tarLoop opsZero w1reads none none).2.1, isSymCall e = false) ∧
    (tarLoop opsZero w1reads none none).2.2 =
      ((tarLoop opsZero w1reads none none).2.1).filterMap symQueuedOf) :=
  ⟨by rfl, c1_symlink_deferral opsZero w1reads (by rfl)⟩

/-- C3: a full header block that fails checksum validation stops the
Running phase, with loop status 0 when the decoded name is empty (clean
end of archive) and loop status -1 (header checksum error) otherwise,
independently of the remaining input; started on such a block,
TarExtractor returns that very status with an empty trace. -/
theorem c3_checksum_fail (ops : TarOps) (buf : List Nat)
    (rest : List (Int × List Nat)) (pn pl : Option (List Nat))
    (hdec : (DecodeTarHeader buf).2 = false) :
    tarLoop ops ((512, buf) :: rest) pn pl =
      ((if cstrIsEmpty (DecodeTarHeader buf).1.Name then 0 else -1), [], []) ∧
    TarExtractor ops ((512, buf) :: rest) =
      ((if cstrIsEmpty (DecodeTarHeader buf).1.Name then 0 else -1), []) := by
  have hstep : ∀ pn' pl' : Option (List Nat), tarStep ops buf pn' pl' rest =
      StepRes.halt (if cstrIsEmpty (DecodeTarHeader buf).1.Name then 0 else -1)
        [] [] := by
    intro pn' pl'
    simp only [tarStep, hdec]
    simp
  have hloop : ∀ pn' pl' : Option (List Nat),
      tarLoop ops ((512, buf) :: rest) pn' pl' =
        ((if cstrIsEmpty (DecodeTarHeader buf).1.Name then 0 else -1), [], []) := by
    intro pn' pl'
    rw [tarLoop_cons, hstep pn' pl']
  refine ⟨hloop pn pl, ?_⟩
  show ((if 0 < (tarDrain ops (tarLoop ops ((512, buf) :: rest) none none).1
      (tarLoop ops ((512, buf) :: rest) none none).2.2).1 then (-1 : Int)
      else (tarDrain ops (tarLoop ops ((512, buf) :: rest) none none).1
        (tarLoop ops ((512, buf) :: rest) none none).2.2).1),
    (tarLoop ops ((512, buf) :: rest) none none).2.1 ++
      (tarDrain ops (tarLoop ops ((512, buf) :: rest) none none).1
        (tarLoop ops ((512, buf) :: rest) none none).2.2).2) = _
  rw [hloop none none]
  cases hc : cstrIsEmpty (DecodeTarHeader buf).1.Name
  · simp [tarDrain]
  · simp [tarDrain]

/-- C3 witness: the all-zero block decodes checksum-invalid with an empty
name and yields clean success; the same block with a non-empty name A
yields the header-checksum-mismatch failure -1. -/
theorem c3_checksum_fail_witness :
    ((DecodeTarHeader zeroBlock).2 = false ∧
      TarExtractor opsZero [(512, zeroBlock)] = (0, [])) ∧
    ((DecodeTarHeader badNameBlock).2 = false ∧
      TarExtractor opsZero [(512, badNameBlock)] = (-1, [])) := by
  constructor
  · refine ⟨by rfl, ?_⟩
    have h := (c3_checksum_fail opsZero zeroBlock [] none none (by rfl)).2
    simpa using h
  · refine ⟨by rfl, ?_⟩
    have h := (c3_checksum_fail opsZero badNameBlock [] none none (by rfl)).2
    simpa using h

/-- C6 counterexample: with an extract_file operation returning the
positive status 5 on a one-file archive, TarExtractor returns -1, not the
operation's status value, so a non-zero status is not propagated verbatim
whatever its sign. -/
theorem c6_counterexample :
    opsFive.extract_file (DecodeTarHeader c6file).1 = 5 ∧
    (TarExtractor opsFive [(512, c6file)]).1 = -1 ∧
    (TarExtractor opsFive [(512, c6file)]).1 ≠
      opsFive.extract_file (DecodeTarHeader c6file).1 := by
  refine ⟨rfl, by rfl, by decide⟩

/-- C6 amended: a non-zero status from an external operation dispatched
during the Running phase stops the loop at once with that status and the
trace ending at that call, the drain phase then makes no symlink-creation
call, and TarExtractor returns the status itself when it is negative and
-1 when it is positive. -/
theorem c6_error_propagation (ops : TarOps) (buf : List Nat)
    (rest : List (Int × List Nat)) (pn pl : Option (List Nat))
    (mh : TarInfo) (st : Int) (evs : List Event) (q : List TarInfo)
    (hdec : DecodeTarHeader buf = (mh, true))
    (hnl : ¬(mh.Typ = GNU_LONGLINK ∨ mh.Typ = GNU_LONGNAME))
    (hne : cstrIsEmpty (pn.getD mh.Name) = false)
    (hdisp : dispatchEntry ops
      { mh with Name := pn.getD mh.Name, LinkName := pl.getD mh.LinkName } =
        some (st, evs, q))
    (hst : st ≠ 0) :
    tarLoop ops ((512, buf) :: rest) pn pl = (st, evs, q) ∧
    (∀ queue, tarDrain ops st queue = (st, [])) ∧
    (∀ reads2, (tarLoop ops reads2 none none).1 = st →
      (TarExtractor ops reads2).1 = (if 0 < st then -1 else st) ∧
      (TarExtractor ops reads2).2 = (tarLoop ops reads2 none none).2.1) := by
  have hstep : tarStep ops buf pn pl rest = StepRes.halt st evs q := by
    simp only [tarStep, hdec, hne, hnl, if_false, Bool.false_eq_true]
    simp only [hdisp, hst, if_true, if_false]
    simp [hst]
  refine ⟨by rw [tarLoop_cons, hstep], fun queue => tarDrain_ne ops st queue hst, ?_⟩
  intro reads2 h2
  constructor
  · show (if 0 < (tarDrain ops (tarLoop ops reads2 none none).1
        (tarLoop ops reads2 none none).2.2).1 then (-1 : Int)
      else (tarDrain ops (tarLoop ops reads2 none none).1
        (tarLoop ops reads2 none none).2.2).1) = _
    rw [h2, tarDrain_ne ops st _ hst]
  · show (tarLoop ops reads2 none none).2.1 ++
      (tarDrain ops (tarLoop ops reads2 none none).1
        (tarLoop ops reads2 none none).2.2).2 = _
    rw [h2, tarDrain_ne ops st _ hst]
    simp

/-- C6 amended witness: the one-file archive with extract_file returning 5
instantiates the amended claim; the loop stops with status 5 and the final
result is -1. -/
theorem c6_error_propagation_witness :
    (DecodeTarHeader c6file = ((DecodeTarHeader c6file).1, true) ∧
      dispatchEntry opsFive
        { (DecodeTarHeader c6file).1 with
            Name := (none : Option (List Nat)).getD (DecodeTarHeader c6file).1.Name,
            LinkName :=
              (none : Option (List Nat)).getD (DecodeTarHeader c6file).1.LinkName } =
        some (5, [Event.ext_file (DecodeTarHeader c6file).1], [])) ∧
    (tarLoop opsFive [(512, c6file)] none none =
      (5, [Event.ext_file (DecodeTarHeader c6file).1], []) ∧
    (∀ queue, tarDrain opsFive 5 queue = (5, [])) ∧
    (∀ reads2, (tarLoop opsFive reads2 none none).1 = 5 →
      (TarExtractor opsFive reads2).1 = (if (0 : Int) < 5 then -1 else 5) ∧
      (TarExtractor opsFive reads2).2 = (tarLoop opsFive reads2 none none).2.1)) :=
  ⟨⟨by rfl, by rfl⟩,
    c6_error_propagation opsFive c6file [] none none (DecodeTarHeader c6file).1
      5 [Event.ext_file (DecodeTarHeader c6file).1] [] (by rfl) (by decide)
      (by rfl) (by rfl) (by decide)⟩

theorem blankedSum_append (a b : List Nat) :
    ∀ i, blankedSum (a ++ b) i = blankedSum a i + blankedSum b (i + a.length) := by
  induction a with
  | nil => intro i; simp [blankedSum]
  | cons c t ih =>
    intro i
    simp only [List.cons_append, List.length_cons]
    rw [blankedSum, blankedSum, ih (i + 1),
      show i + 1 + t.length = i + (t.length + 1) from by omega]
    ring

theorem blankedSum_low :
    ∀ (l : List Nat) (i : Nat), i + l.length ≤ 148 → blankedSum l i = l.sum := by
  intro l
  induction l with
  | nil => intro i _; rfl
  | cons c t ih =>
    intro i h
    simp only [List.length_cons] at h
    rw [blankedSum, if_neg (by omega), ih (i + 1) (by omega)]
    simp

theorem blankedSum_mid :
    ∀ (l : List Nat) (i : Nat), 148 ≤ i → i + l.length ≤ 156 →
      blankedSum l i = 32 * l.length := by
  intro l
  induction l with
  | nil => intro i _ _; rfl
  | cons c t ih =>
    intro i h1 h2
    simp only [List.length_cons] at h2
    rw [blankedSum, if_pos (by omega), ih (i + 1) (by omega) (by omega)]
    simp only [List.length_cons]
    ring

theorem blankedSum_high :
    ∀ (l : List Nat) (i : Nat), 156 ≤ i → blankedSum l i = l.sum := by
  intro l
  induction l with
  | nil => intro i _; rfl
  | cons c t ih =>
    intro i h
    rw [blankedSum, if_neg (by omega), ih (i + 1) (by omega)]
    simp

/-- C2: a decoded block reports checksum-valid exactly when the
octal-decoded 8-byte checksum field equals the sum of all 512 block bytes
with the 8 bytes of the checksum field replaced by the ASCII space value
in the sum. -/
theorem c2_checksum_iff (block : List Nat) (hlen : block.length = 512) :
    (DecodeTarHeader block).2 = true ↔
      OtoL (field block 148 8) 8 = blankedSum block 0 := by
  have hf1 : field block 0 148 = block.take 148 := by simp [field]
  have hf2 : field block 156 356 = block.drop 156 := by
    apply List.take_of_length_le
    rw [List.length_drop, hlen]
  have l1 : (block.take 148).length = 148 := by
    rw [List.length_take]
    omega
  have l2 : ((block.drop 148).take 8).length = 8 := by
    rw [List.length_take, List.length_drop, hlen]
    omega
  have hdd : (block.drop 148).drop 8 = block.drop 156 := by
    rw [List.drop_drop]
  have hsum : blankedSum block 0 =
      (block.take 148).sum + 32 * 8 + (block.drop 156).sum := by
    conv_lhs => rw [← List.take_append_drop 148 block,
      ← List.take_append_drop 8 (block.drop 148)]
    rw [blankedSum_append, blankedSum_append, l1, l2,
      blankedSum_low _ 0 (by omega),
      blankedSum_mid _ _ (by omega) (by omega),
      blankedSum_high _ _ (by omega), hdd, l2]
    ring
  have hshow : (DecodeTarHeader block).2 =
      decide (32 * 8 + (field block 0 148).sum + (field block 156 356).sum =
        OtoL (field block 148 8) 8) := rfl
  rw [hshow, decide_eq_true_eq, hsum, hf1, hf2]
  omega

/-- C2 witness: a concrete checksum-valid block instantiates the
equivalence. -/
theorem c2_checksum_iff_witness :
    w1file.length = 512 ∧
    ((DecodeTarHeader w1file).2 = true ↔
      OtoL (field w1file 148 8) 8 = blankedSum w1file 0) :=
  ⟨by rfl, c2_checksum_iff w1file (by rfl)⟩

theorem cstr_set_last : ∀ (l : List Nat), cstr l ≠ [] →
    cstr (l.set (cstrlen l - 1) 0) = (cstr l).dropLast := by
  intro l
  induction l with
  | nil => intro h; exact absurd rfl h
  | cons c t ih =>
    intro hne
    by_cases hc : c = 0
    · exact absurd (by simp [cstr, hc]) hne
    · have hcons : cstr (c :: t) = c :: cstr t := by
        simp [cstr, List.takeWhile_cons, hc]
      by_cases ht : cstr t = []
      · have hlen : cstrlen (c :: t) = 1 := by
          simp [cstrlen, hcons, ht]
        rw [hlen, (rfl : (1 : Nat) - 1 = 0), List.set_cons_zero,
          hcons, ht, List.dropLast_single]
        simp [cstr]
      · have htl : 1 ≤ cstrlen t := by
          have := List.length_pos.mpr ht
          simpa [cstrlen] using this
        have hlen : cstrlen (c :: t) = cstrlen t + 1 := by
          simp [cstrlen, hcons]
        rw [hlen, (by omega : cstrlen t + 1 - 1 = (cstrlen t - 1) + 1),
          List.set_cons_succ]
        have hcons2 : cstr (c :: t.set (cstrlen t - 1) 0) =
            c :: cstr (t.set (cstrlen t - 1) 0) := by
          simp [cstr, List.takeWhile_cons, hc]
        rw [hcons2, ih ht, hcons, List.dropLast_cons_of_ne_nil ht]

/-- C8: a checksum-valid regular-file entry (either regular-file type)
with a non-empty name ending in a slash is dispatched to the external
directory-creation operation with the trailing slash stripped from the
name and no file-extraction call, while a name not ending in a slash is
dispatched to the external file-extraction operation. -/
theorem c8_trailing_slash (ops : TarOps) (h : TarInfo)
    (htype : h.Typ = NormalFile0 ∨ h.Typ = NormalFile1)
    (hne : cstr h.Name ≠ []) :
    if (cstr h.Name).getLastD 0 = 47 then
      dispatchEntry ops h =
          some (ops.mkdir { h with Name := h.Name.set (cstrlen h.Name - 1) 0 },
            [Event.mk_dir { h with Name := h.Name.set (cstrlen h.Name - 1) 0 }],
            []) ∧
        cstr (h.Name.set (cstrlen h.Name - 1) 0) = (cstr h.Name).dropLast
    else
      dispatchEntry ops h =
        some (ops.extract_file h, [Event.ext_file h], []) := by
  by_cases hs : (cstr h.Name).getLastD 0 = 47
  · rw [if_pos hs]
    refine ⟨?_, cstr_set_last h.Name hne⟩
    simp only [dispatchEntry]
    rw [if_pos htype, if_neg (not_ne_iff.mpr hs)]
  · rw [if_neg hs]
    simp only [dispatchEntry]
    rw [if_pos htype, if_pos hs]

/-- The c8 witness entry with the trailing slash overwritten by a NUL. -/
def c8stripped : TarInfo :=
  { (DecodeTarHeader c8slashFile).1 with
      Name := (DecodeTarHeader c8slashFile).1.Name.set
        (cstrlen (DecodeTarHeader c8slashFile).1.Name - 1) 0 }

/-- C8 witness: the regular-file entry named e slash goes to mkdir with
the slash stripped, and the regular-file entry named a goes to
extract_file. -/
theorem c8_trailing_slash_witness :
    (cstr (DecodeTarHeader c8slashFile).1.Name ≠ [] ∧
      dispatchEntry opsZero (DecodeTarHeader c8slashFile).1 =
        some (opsZero.mkdir c8stripped, [Event.mk_dir c8stripped], []) ∧
      cstr c8stripped.Name =
        (cstr (DecodeTarHeader c8slashFile).1.Name).dropLast) ∧
    (cstr (DecodeTarHeader c6file).1.Name ≠ [] ∧
      dispatchEntry opsZero (DecodeTarHeader c6file).1 =
        some (opsZero.extract_file (DecodeTarHeader c6file).1,
          [Event.ext_file (DecodeTarHeader c6file).1], [])) := by
  constructor
  · have h1 := c8_trailing_slash opsZero (DecodeTarHeader c8slashFile).1
      (Or.inr (by rfl)) (by decide)
    rw [if_pos (by decide)] at h1
    exact ⟨by decide, h1.1, h1.2⟩
  · have h2 := c8_trailing_slash opsZero (DecodeTarHeader c6file).1
      (Or.inr (by rfl)) (by decide)
    rw [if_neg (by decide)] at h2
    exact ⟨by decide, h2⟩

theorem otolSkip_replicate :
    ∀ (k : Nat) (rest : List Nat) (size : Int), rest.headD 0 ≠ 32 →
      otolSkip (List.replicate k 32 ++ rest) size = (rest, size - k) := by
  intro k
  induction k with
  | zero =>
    intro rest size h
    cases rest with
    | nil => simp [otolSkip]
    | cons c s =>
      simp only [List.headD_cons] at h
      simp [otolSkip, h]
  | succ k ih =>
    intro rest size h
    simp only [List.replicate_succ, List.cons_append]
    rw [otolSkip, if_pos rfl, ih rest (size - 1) h,
      (by push_cast; ring : size - 1 - (k : Int) = size - ((k : Nat) + 1 : Nat))]

theorem otolDigits_run :
    ∀ (ds : List Nat) (rest : List Nat) (size : Int) (n : Nat),
      (∀ d ∈ ds, 48 ≤ d ∧ d ≤ 55) →
      (ds.length : Int) ≤ size →
      (rest.headD 0 < 48 ∨ 55 < rest.headD 0) →
      otolDigits (ds ++ rest) size n =
        ds.foldl (fun a d => 8 * a + (d - 48)) n := by
  intro ds
  induction ds with
  | nil =>
    intro rest size n _ _ hrest
    cases rest with
    | nil => rfl
    | cons c s =>
      simp only [List.headD_cons] at hrest
      simp only [List.nil_append, List.foldl_nil]
      rw [otolDigits]
      split
      · rfl
      · rw [if_neg (by omega)]
  | cons d ds ih =>
    intro rest size n hds hsz hrest
    simp only [List.length_cons] at hsz
    have hd := hds d (List.mem_cons_self _ _)
    simp only [List.cons_append, List.foldl_cons]
    rw [otolDigits, if_neg (by push_cast at hsz ⊢; omega), if_pos hd,
      ih rest (size - 1) (8 * n + (d - 48))
        (fun x hx => hds x (List.mem_cons_of_mem _ hx))
        (by push_cast at hsz ⊢; omega) hrest]

/-- C9: the octal parser skips leading spaces, then folds base-8 digits
until the first non-octal byte or the exhausted field width, returning the
accumulated value; in particular the 8-byte field 0000007 space decodes to
7 and an all-space field decodes to 0, with trailing non-digit content
such as a NUL stopping the scan without error. -/
theorem c9_octal_decode :
    (∀ (sp : Nat) (ds rest : List Nat),
      (∀ d ∈ ds, 48 ≤ d ∧ d ≤ 55) →
      rest.headD 0 ≠ 32 →
      (rest.headD 0 < 48 ∨ 55 < rest.headD 0) →
      OtoL (List.replicate sp 32 ++ ds ++ rest)
          ((sp : Int) + ds.length + rest.length) =
        ds.foldl (fun a d => 8 * a + (d - 48)) 0) ∧
    OtoL [48, 48, 48, 48, 48, 48, 55, 32] 8 = 7 ∧
    OtoL (List.replicate 8 32) 8 = 0 := by
  refine ⟨?_, by rfl, by rfl⟩
  intro sp ds rest hds hr1 hr2
  have hhead : (ds ++ rest).headD 0 ≠ 32 := by
    cases ds with
    | nil => simpa using hr1
    | cons d t =>
      have := hds d (List.mem_cons_self _ _)
      simp only [List.cons_append, List.headD_cons]
      omega
  have hskip := otolSkip_replicate sp (ds ++ rest)
    ((sp : Int) + ds.length + rest.length) hhead
  rw [OtoL, List.append_assoc, hskip]
  dsimp only
  rw [otolDigits_run ds rest _ 0 hds (by omega) hr2]

/-- C9 witness: one leading space, the single digit 7, then a NUL
terminator decodes to 7 through the general characterization. -/
theorem c9_octal_decode_witness :
    OtoL (List.replicate 1 32 ++ [55] ++ [0])
        ((1 : Int) + [55].length + [0].length) =
      [55].foldl (fun a d => 8 * a + (d - 48)) 0 :=
  c9_octal_decode.1 1 [55] [0] (by decide) (by decide) (by decide)

theorem octalAscii_length : ∀ (w n : Nat), (octalAscii w n).length = w := by
  intro w
  induction w with
  | zero => intro n; rfl
  | succ w ih =>
    intro n
    simp [octalAscii, ih]

theorem getD_drop (l : List Nat) (n d : Nat) :
    l.getD n d = (l.drop n).headD d := by
  rw [List.getD_eq_getElem?_getD, List.headD_eq_head?_getD, List.head?_drop]

theorem stoc_padTo (l : List Nat) (n : Nat) (h : ∀ c ∈ l, c ≠ 0) :
    StoC (padTo l n) = l := by
  unfold StoC padTo
  rw [List.takeWhile_append_of_pos (by intro a ha; simpa using h a ha)]
  simp

theorem mkBlockRaw_name (name : List Nat) (size typ : Nat)
    (linkname magic pfx cks : List Nat) (hn : name.length ≤ 100) :
    field (mkBlockRaw name size typ linkname magic pfx cks) 0 100 =
      padTo name 100 := by
  unfold field mkBlockRaw
  rw [List.drop_zero]
  repeat rw [List.append_assoc (padTo name 100)]
  apply List.take_left'
  simp [padTo]
  omega

theorem mkBlockRaw_len_front (name : List Nat) (size typ : Nat)
    (linkname magic cks : List Nat) (hn : name.length ≤ 100)
    (hl : linkname.length ≤ 100) (hm : magic.length ≤ 8)
    (hc : cks.length = 8) :
    (padTo name 100 ++ octField 8 0 ++ octField 8 0 ++ octField 8 0 ++
      octField 12 size ++ octField 12 0 ++ cks ++ [typ] ++
      padTo linkname 100 ++ padTo magic 8 ++ List.replicate 32 0 ++
      List.replicate 32 0 ++ octField 8 0 ++ octField 8 0).length = 345 := by
  simp [padTo, octField, octalAscii_length, hc]
  omega

theorem mkBlockRaw_drop345 (name : List Nat) (size typ : Nat)
    (linkname magic pfx cks : List Nat) (hn : name.length ≤ 100)
    (hl : linkname.length ≤ 100) (hm : magic.length ≤ 8)
    (hc : cks.length = 8) :
    (mkBlockRaw name size typ linkname magic pfx cks).drop 345 =
      padTo pfx 155 ++ List.replicate 12 0 := by
  unfold mkBlockRaw
  rw [List.append_assoc _ (padTo pfx 155)]
  exact List.drop_left'
    (mkBlockRaw_len_front name size typ linkname magic cks hn hl hm hc)

theorem mkBlockRaw_pfx (name : List Nat) (size typ : Nat)
    (linkname magic pfx cks : List Nat) (hn : name.length ≤ 100)
    (hl : linkname.length ≤ 100) (hm : magic.length ≤ 8)
    (hc : cks.length = 8) (hp : pfx.length ≤ 155) :
    field (mkBlockRaw name size typ linkname magic pfx cks) 345 155 =
      padTo pfx 155 := by
  unfold field
  rw [mkBlockRaw_drop345 name size typ linkname magic pfx cks hn hl hm hc]
  apply List.take_left'
  simp [padTo]
  omega

theorem mkBlockRaw_magic (name : List Nat) (size typ : Nat)
    (linkname magic pfx cks : List Nat) (hn : name.length ≤ 100)
    (hl : linkname.length ≤ 100) (hm : magic.length ≤ 8)
    (hc : cks.length = 8) :
    field (mkBlockRaw name size typ linkname magic pfx cks) 257 6 =
      (padTo magic 8).take 6 := by
  have hregroup : mkBlockRaw name size typ linkname magic pfx cks =
      (padTo name 100 ++ octField 8 0 ++ octField 8 0 ++ octField 8 0 ++
        octField 12 size ++ octField 12 0 ++ cks ++ [typ] ++
        padTo linkname 100) ++
      (padTo magic 8 ++ (List.replicate 32 0 ++ List.replicate 32 0 ++
        octField 8 0 ++ octField 8 0 ++ padTo pfx 155 ++
        List.replicate 12 0)) := by
    simp [mkBlockRaw, List.append_assoc]
  unfold field
  rw [hregroup, List.drop_left'
    (show (padTo name 100 ++ octField 8 0 ++ octField 8 0 ++ octField 8 0 ++
      octField 12 size ++ octField 12 0 ++ cks ++ [typ] ++
      padTo linkname 100).length = 257 by
        simp [padTo, octField, octalAscii_length, hc]
        omega)]
  apply List.take_append_of_le_length
  simp [padTo]
  omega

theorem decode_name_ustar (block : List Nat)
    (hg : field block 257 6 ≠ TAR_MAGIC_GNU)
    (hu : field block 257 6 = TAR_MAGIC_USTAR)
    (hp : block.getD 345 0 ≠ 0) :
    (DecodeTarHeader block).1.Name =
      StoC (field block 345 155) ++ [47] ++ StoC (field block 0 100) := by
  show (if ((if field block 257 6 = TAR_MAGIC_GNU then TarFormat.gnu
      else if field block 257 6 = TAR_MAGIC_USTAR then TarFormat.ustar
      else TarFormat.old) = TarFormat.ustar ∧ block.getD 345 0 ≠ 0) then
      get_prefix_name block
    else StoC (field block 0 100)) = _
  rw [if_neg hg, if_pos hu, if_pos ⟨rfl, hp⟩]
  rfl

/-- C7: when a block decodes with the Ustar format and a non-empty prefix
field, the decoded name is the prefix field's string, a slash, then the
name field's string; and encoding a regular-file entry whose 150-byte path
splits as prefix, slash, name into the ustar prefix and name fields, then
decoding, reproduces the exact original path. -/
theorem c7_ustar_roundtrip :
    (∀ block : List Nat,
      (DecodeTarHeader block).1.format = TarFormat.ustar →
      block.getD 345 0 ≠ 0 →
      (DecodeTarHeader block).1.Name =
        StoC (field block 345 155) ++ [47] ++ StoC (field block 0 100)) ∧
    (∀ pfx nm : List Nat,
      pfx ≠ [] →
      (∀ c ∈ pfx, c ≠ 0) →
      (∀ c ∈ nm, c ≠ 0) →
      pfx.length ≤ 155 →
      nm.length ≤ 100 →
      pfx.length + 1 + nm.length = 150 →
      (DecodeTarHeader (encodeUstar pfx nm)).1.Name = pfx ++ [47] ++ nm) := by
  constructor
  · intro block hfmt hp
    by_cases hg : field block 257 6 = TAR_MAGIC_GNU
    · exfalso
      simp [DecodeTarHeader, hg] at hfmt
    · by_cases hu : field block 257 6 = TAR_MAGIC_USTAR
      · exact decode_name_ustar block hg hu hp
      · exfalso
        simp [DecodeTarHeader, hg, hu] at hfmt
  · intro pfx nm hpne h0 h1 hlp hln _hlen
    have hcks : (octField 8 (mkBlockRaw nm 0 48 []
        [117, 115, 116, 97, 114, 0, 48, 48] pfx
        (List.replicate 8 32)).sum).length = 8 := by
      simp [octField, octalAscii_length]
    have hblk : encodeUstar pfx nm = mkBlockRaw nm 0 48 []
        [117, 115, 116, 97, 114, 0, 48, 48] pfx
        (octField 8 (mkBlockRaw nm 0 48 []
          [117, 115, 116, 97, 114, 0, 48, 48] pfx
          (List.replicate 8 32)).sum) := rfl
    have hm6 : field (encodeUstar pfx nm) 257 6 = TAR_MAGIC_USTAR := by
      rw [hblk, mkBlockRaw_magic _ _ _ _ _ _ _ hln (by simp) (by simp) hcks]
      rfl
    have hgnu : field (encodeUstar pfx nm) 257 6 ≠ TAR_MAGIC_GNU := by
      rw [hm6]
      decide
    have hpfx0 : (encodeUstar pfx nm).getD 345 0 ≠ 0 := by
      rw [getD_drop, hblk,
        mkBlockRaw_drop345 _ _ _ _ _ _ _ hln (by simp) (by simp) hcks]
      obtain ⟨c, pfx2, rfl⟩ : ∃ c t, pfx = c :: t := by
        cases pfx with
        | nil => exact absurd rfl hpne
        | cons c t => exact ⟨c, t, rfl⟩
      simpa [padTo] using h0 c (List.mem_cons_self _ _)
    have hf345 : field (encodeUstar pfx nm) 345 155 = padTo pfx 155 := by
      rw [hblk]
      exact mkBlockRaw_pfx _ _ _ _ _ _ _ hln (by simp) (by simp) hcks hlp
    have hf0 : field (encodeUstar pfx nm) 0 100 = padTo nm 100 := by
      rw [hblk]
      exact mkBlockRaw_name _ _ _ _ _ _ _ hln
    rw [decode_name_ustar (encodeUstar pfx nm) hgnu hm6 hpfx0,
      hf345, hf0, stoc_padTo pfx 155 h0, stoc_padTo nm 100 h1]

/-- C7 witness: the 150-byte path made of 100 letters a, a slash, and 49
letters b splits into prefix and name, and decoding the encoded block
returns exactly that path. -/
theorem c7_ustar_roundtrip_witness :
    ((DecodeTarHeader (encodeUstar (List.replicate 100 97)
        (List.replicate 49 98))).1.format = TarFormat.ustar →
      (encodeUstar (List.replicate 100 97)
        (List.replicate 49 98)).getD 345 0 ≠ 0 →
      (DecodeTarHeader (encodeUstar (List.replicate 100 97)
          (List.replicate 49 98))).1.Name =
        StoC (field (encodeUstar (List.replicate 100 97)
            (List.replicate 49 98)) 345 155) ++ [47] ++
          StoC (field (encodeUstar (List.replicate 100 97)
            (List.replicate 49 98)) 0 100)) ∧
    ((List.replicate 100 97).length + 1 + (List.replicate 49 98).length = 150 ∧
      (DecodeTarHeader (encodeUstar (List.replicate 100 97)
          (List.replicate 49 98))).1.Name =
        List.replicate 100 97 ++ [47] ++ List.replicate 49 98) :=
  ⟨c7_ustar_roundtrip.1 (encodeUstar (List.replicate 100 97)
      (List.replicate 49 98)),
   ⟨by decide,
    c7_ustar_roundtrip.2 (List.replicate 100 97) (List.replicate 49 98)
      (by decide) (by decide) (by decide) (by decide) (by decide) (by decide)⟩⟩

/-- C10: TarExtractor never returns a positive status: the result is 0 on
success and negative on failure, any positive residual being normalized by
the final check; the result equals the drain status except that a positive
drain status becomes -1. -/
theorem c10_nonpositive_result (ops : TarOps) (reads : List (Int × List Nat)) :
    (TarExtractor ops reads).1 ≤ 0 ∧
    (TarExtractor ops reads).1 =
      (if 0 < (tarDrain ops (tarLoop ops reads none none).1
          (tarLoop ops reads none none).2.2).1 then -1
       else (tarDrain ops (tarLoop ops reads none none).1
          (tarLoop ops reads none none).2.2).1) := by
  refine ⟨?_, rfl⟩
  show (if 0 < (tarDrain ops (tarLoop ops reads none none).1
      (tarLoop ops reads none none).2.2).1 then (-1 : Int)
    else (tarDrain ops (tarLoop ops reads none none).1
      (tarLoop ops reads none none).2.2).1) ≤ 0
  split
  · norm_num
  · omega

end Tarfn
